import Mathlib

/-!
Verification of the `patchy` binary delta engine (`src/hash.rs`, `src/patchy.rs`).

Byte sequences are modelled as `List Nat` (each element a byte value < 256; the
rolling hash reduces bytes mod 256 exactly where the Rust code's `u8` wrapping does,
so no global bound is needed).  Machine integers (`u16`, `u32`, `u64`, `usize`) are
modelled as `Nat` with explicit `% 2^w` reductions at every operation where the Rust
code wraps.  Fallible operations (slice indexing that panics in Rust) return `Option`.

Loops are modelled as fuel-indexed structural recursions; the fuel bounds are chosen
so that, for the block sizes the theorems assume (`1 ≤ block_size`), the fuel is never
exhausted and the model coincides with the Rust control flow.
-/

namespace Patchy

/-! ### `src/hash.rs`: the rolling hash

`RollingHash { a : u16, b : u16, count : usize }`.  The fields `a` and `b` are kept
reduced modulo `2^16 = 65536`; `count` is a `usize` modelled as `Nat`.  The Rust code
uses `wrapping_add` / `wrapping_sub` on `a` and `b` (modelled by the explicit `% 65536`)
but *plain* (trapping) arithmetic on `count`: `count -= 1` panics on `count = 0` in a
debug build.  Inside the differ `sub` is only reached with `count ≥ 1`, so `sub` below
uses truncated subtraction; the trapping behaviour of a bare operation sequence is
modelled separately by `runOps`. -/

structure RollingHash where
  a : Nat
  b : Nat
  count : Nat
deriving DecidableEq

def RollingHash.new : RollingHash := ⟨0, 0, 0⟩

/-- `(self.a as u32) | ((self.b as u32) << 16)`; since `a < 2^16` the bitwise or is
addition. -/
def RollingHash.get (h : RollingHash) : Nat := h.a + 65536 * h.b

/-- `a ← a +₁₆ (x +₈ 31)`; `b ← b +₁₆ a` (with the already-updated `a`); `count += 1`. -/
def RollingHash.add (h : RollingHash) (x : Nat) : RollingHash :=
  let a1 := (h.a + (x + 31) % 256) % 65536
  ⟨a1, (h.b + a1) % 65536, h.count + 1⟩

/-- `x2 = x +₈ 31`; `a ← a -₁₆ x2`; `b ← b -₁₆ ((count * x2) as u16)`; `count -= 1`.
`(count * x2) as u16` is `count * x2 % 2^64 % 2^16 = count * x2 % 2^16` because
`2^16 ∣ 2^64`.  The wrapping `u16` subtraction `u -₁₆ v` (for `u, v < 65536`, which the
fields always are) is `(u + 65536 - v) % 65536`. -/
def RollingHash.sub (h : RollingHash) (x : Nat) : RollingHash :=
  let x2 := (x + 31) % 256
  ⟨(h.a + 65536 - x2) % 65536, (h.b + 65536 - h.count * x2 % 65536) % 65536, h.count - 1⟩

/-- `update` calls `add` on each byte in order. -/
def RollingHash.update (h : RollingHash) (input : List Nat) : RollingHash :=
  input.foldl RollingHash.add h

/-- Modelled from the spec: the strong hash (§4.B) is the 16-byte truncation of the
BLAKE3 digest of the input, produced by the external `blake3` crate (not part of this
repository's sources).  The engine relies on exactly one property of it: it is a
collision-resistant content fingerprint, compared only for equality.  It is therefore
modelled as an injective fingerprint of the byte sequence — the sequence itself. -/
def compute_hash_strong (input : List Nat) : List Nat := input

/-- `compute_hash_weak`: the rolling hash of the whole input from a fresh state. -/
def compute_hash_weak (input : List Nat) : Nat := (RollingHash.new.update input).get

/-! ### The trapping semantics of bare `RollingHash` operation sequences (for C8)

A sequence of `add` / `sub` / `get` calls starting from `RollingHash::new()`.
`sub` executes `self.count -= 1`, which is plain `usize` arithmetic: on `count = 0`
it underflows (a panic in a debug build; the explicitly-wrapping operations are only
those on `a` and `b`).  `runOps` returns `none` exactly when such an underflow is hit. -/

inductive RHOp where
  | add (x : Nat)
  | sub (x : Nat)
  | get
deriving DecidableEq

def runOps : List RHOp → RollingHash → Option RollingHash
  | [], h => some h
  | RHOp.add x :: rest, h => runOps rest (h.add x)
  | RHOp.sub x :: rest, h =>
    if h.count = 0 then none else runOps rest (h.sub x)
  | RHOp.get :: rest, h => runOps rest h

/-- Number of `add` operations in a list. -/
def countAdds : List RHOp → Nat
  | [] => 0
  | RHOp.add _ :: rest => countAdds rest + 1
  | _ :: rest => countAdds rest

/-- Number of `sub` operations in a list. -/
def countSubs : List RHOp → Nat
  | [] => 0
  | RHOp.sub _ :: rest => countSubs rest + 1
  | _ :: rest => countSubs rest

/-! ### `src/patchy.rs`: blocks and fingerprinting -/

/-- `div_up(num, den) = (num + den - 1) / den`. -/
def div_up (num den : Nat) : Nat := (num + den - 1) / den

structure Block where
  offset : Nat
  size : Nat
  hash_weak : Nat
  hash_strong : List Nat
deriving DecidableEq

/-- The chunk loop of `compute_blocks`: `input.chunks(block_size)`, each chunk giving a
`Block` whose `offset` is its byte offset, `size` its length, and whose weak/strong
hashes are computed over the chunk (the `rayon` parallel loop computes per-chunk values
independently; the output order is chunk order, which this sequential recursion gives
directly).  Fuel-indexed: with `fuel ≥ input.length` and `block_size ≥ 1` the fuel is
never exhausted.  (Rust's `chunks` panics for `block_size = 0`; the model is only
meaningful for `block_size ≥ 1`, which every theorem assumes.) -/
def computeBlocksAux (bs : Nat) : Nat → List Nat → Nat → List Block
  | _, [], _ => []
  | 0, _ :: _, _ => []
  | fuel + 1, x :: xs, off =>
    let chunk := (x :: xs).take bs
    ⟨off, chunk.length, compute_hash_weak chunk, compute_hash_strong chunk⟩
      :: computeBlocksAux bs fuel ((x :: xs).drop bs) (off + bs)

def compute_blocks (input : List Nat) (bs : Nat) : List Block :=
  computeBlocksAux bs input.length input 0

/-! ### Copy commands and patch commands -/

structure CopyCmd where
  source : Nat
  target : Nat
  size : Nat
deriving DecidableEq

/-- `CopyCmd::execute`: copy `size` bytes from `source[self.source ..]` into
`target[self.target ..]`.  Rust panics when either slice range is out of bounds;
modelled by `none`. -/
def CopyCmd.execute (cmd : CopyCmd) (target source : List Nat) : Option (List Nat) :=
  if cmd.source + cmd.size ≤ source.length ∧ cmd.target + cmd.size ≤ target.length then
    some (target.take cmd.target ++ (source.drop cmd.source).take cmd.size
      ++ target.drop (cmd.target + cmd.size))
  else none

structure PatchCommands where
  base : List CopyCmd
  other : List CopyCmd
deriving DecidableEq

def PatchCommands.new : PatchCommands := ⟨[], []⟩

def PatchCommands.is_synchronized (pc : PatchCommands) : Bool :=
  pc.base.isEmpty && pc.other.isEmpty

/-- `compute_copy_size`: sum of the `size` fields (the loop accumulates in order;
addition is associative/commutative so a right fold is the same value). -/
def compute_copy_size : List CopyCmd → Nat
  | [] => 0
  | cmd :: rest => cmd.size + compute_copy_size rest

def sumSizes : List Block → Nat
  | [] => 0
  | blk :: rest => blk.size + sumSizes rest

/-- The free function `is_synchronized(sequence, blocks)`: equal lengths and
elementwise equality of `sequence` with the blocks' strong hashes. -/
def is_synchronized (sequence : List (List Nat)) (blocks : List Block) : Bool :=
  decide (sequence.length = blocks.length) &&
    (sequence.zip blocks).all fun p => decide (p.1 = p.2.hash_strong)

/-! ### The differ (`compute_diff`) -/

/-- The closure `find_base_block` of `compute_diff`: weak-hash filter, then strong-hash
confirmation over the window slice `input[block_begin .. block_end]`. -/
def find_base_block (input : List Nat) (weakSet : List Nat) (strongSet : List (List Nat))
    (block_begin block_end : Nat) (block_hash_weak : Nat) : Option Block :=
  if block_hash_weak ∈ weakSet then
    let block_slice := (input.drop block_begin).take (block_end - block_begin)
    let block_hash_strong := compute_hash_strong block_slice
    if block_hash_strong ∈ strongSet then
      some ⟨block_begin, block_end - block_begin, block_hash_weak, block_hash_strong⟩
    else none
  else none

/-- The main scan loop of `compute_diff`.  The Rust loop carries `window_begin`,
`window_end`, and the rolling hash; `window_end = window_begin + rolling_hash.count()`
is an invariant of the loop (initially `0 = 0`; a match resets both to equal values; a
slide moves `window_begin` by one and drops one byte from the hash), so `window_end` is
represented implicitly as `wb + rh.count`.  Each iteration:
grows the window to `this_window_size = min (remaining, block_size)` by `add`-ing the
bytes at `input[wb + rh.count ..]`, then probes `find_base_block`; on a hit it records
the block in the hash map (a `HashMap::insert`, i.e. overwrite — modelled by consing,
with lookup taking the most recent binding) and in `sequence`, and restarts past the
window; on a miss it `sub`s the byte at `window_begin` and slides by one.
Fuel-indexed: for `block_size ≥ 1` every iteration increases `wb` by at least one, so
fuel `input.length + 1` is never exhausted.  (For `block_size = 0` the Rust loop does
not terminate.) -/
def scanLoop (input : List Nat) (bs : Nat) (weakSet : List Nat)
    (strongSet : List (List Nat)) :
    Nat → Nat → RollingHash → List (List Nat × Nat) → List (List Nat) →
    List (List Nat × Nat) × List (List Nat)
  | 0, _, _, hmap, seq => (hmap, seq)
  | fuel + 1, wb, rh, hmap, seq =>
    if input.length - wb = 0 then (hmap, seq)
    else
      let tws := min (input.length - wb) bs
      let rh1 := rh.update ((input.drop (wb + rh.count)).take (tws - rh.count))
      match find_base_block input weakSet strongSet wb (wb + tws) rh1.get with
      | some blk =>
        scanLoop input bs weakSet strongSet fuel (wb + tws) RollingHash.new
          ((blk.hash_strong, blk.offset) :: hmap) (seq ++ [blk.hash_strong])
      | none =>
        scanLoop input bs weakSet strongSet fuel (wb + 1) (rh1.sub (input.getD wb 0))
          hmap seq

/-- `HashMap::get` on the insertion-ordered association list: the most recent binding
for the key (insert overwrites, and `mapLookup` finds the newest first). -/
def mapLookup (hmap : List (List Nat × Nat)) (key : List Nat) : Option Nat :=
  (hmap.find? fun p => decide (p.1 = key)).map Prod.snd

/-- The emission loop of `compute_diff`: for each other-block in order, a copy from the
base when its strong hash was matched in the scan, otherwise a residual copy from
`other` itself.  (The Rust loop pushes at the end of the respective vector; the
recursion conses the head block's command onto the commands of the remaining blocks,
which yields the same lists.) -/
def emitCmds (hmap : List (List Nat × Nat)) : List Block → PatchCommands
  | [] => PatchCommands.new
  | blk :: rest =>
    let pc := emitCmds hmap rest
    match mapLookup hmap blk.hash_strong with
    | some base_offset => ⟨⟨base_offset, blk.offset, blk.size⟩ :: pc.base, pc.other⟩
    | none => ⟨pc.base, ⟨blk.offset, blk.offset, blk.size⟩ :: pc.other⟩

def compute_diff (input : List Nat) (other_blocks : List Block) (bs : Nat) :
    PatchCommands :=
  let weakSet := other_blocks.map Block.hash_weak
  let strongSet := other_blocks.map Block.hash_strong
  let other_len := sumSizes other_blocks
  let scanRes := scanLoop input bs weakSet strongSet (input.length + 1) 0
    RollingHash.new [] []
  if input.length ≠ other_len ∨ is_synchronized scanRes.2 other_blocks = false then
    emitCmds scanRes.1 other_blocks
  else PatchCommands.new

/-! ### Patch building (`optimize_copy_cmds`, `build_patch`) and application -/

structure Patch where
  data : List Nat
  base : List CopyCmd
  other : List CopyCmd
  other_size : Nat
deriving DecidableEq

/-- The sort key of `cmds.sort_by_key(|v| v.target)`. -/
def cmdLE (x y : CopyCmd) : Prop := x.target ≤ y.target

instance : DecidableRel cmdLE := fun x y => inferInstanceAs (Decidable (x.target ≤ y.target))

instance : IsTotal CopyCmd cmdLE := ⟨fun x y => Nat.le_total x.target y.target⟩

instance : IsTrans CopyCmd cmdLE := ⟨fun _ _ _ h h' => Nat.le_trans h h'⟩

/-- The merge condition of `optimize_copy_cmds`: contiguous sources, contiguous
targets, and the merged size fits in a `u32`. -/
def mergeable (prev curr : CopyCmd) : Prop :=
  prev.source + prev.size = curr.source ∧ prev.target + prev.size = curr.target ∧
    prev.size + curr.size ≤ 4294967295

instance (prev curr : CopyCmd) : Decidable (mergeable prev curr) :=
  inferInstanceAs (Decidable (_ ∧ _ ∧ _))

/-- The merge walk of `optimize_copy_cmds`: for each adjacent pair `(prev, curr)` of
the sorted list, if mergeable then `curr` absorbs `prev` (`curr.source ← prev.source`,
`curr.target ← prev.target`, `curr.size += prev.size`) and `prev.size ← 0`; in either
case `prev` advances to the (possibly modified) `curr`.  The walk emits each element's
final value in order. -/
def coalesceWalk : CopyCmd → List CopyCmd → List CopyCmd
  | prev, [] => [prev]
  | prev, curr :: rest =>
    if mergeable prev curr then
      ⟨prev.source, prev.target, 0⟩
        :: coalesceWalk ⟨prev.source, prev.target, curr.size + prev.size⟩ rest
    else prev :: coalesceWalk curr rest

/-- `optimize_copy_cmds`: for lists of length > 1, stable-sort by `target`
(Rust's `sort_by_key` is stable, as is `insertionSort`), run the merge walk, and
discard zero-size commands; shorter lists are returned unchanged. -/
def optimize_copy_cmds (cmds : List CopyCmd) : List CopyCmd :=
  if 1 < cmds.length then
    match List.insertionSort cmdLE cmds with
    | [] => []
    | first :: rest => (coalesceWalk first rest).filter fun c => decide (c.size ≠ 0)
  else cmds

/-- The residual-gathering loop of `build_patch`: for each command of
`patch_commands.other` in order, append the slice
`other_data[cmd.source .. cmd.source + cmd.size]` to `data` and emit the command with
its `source` rewritten to the slice's offset inside `data` (`dataLen` tracks
`patch_data.len()`).  In-bounds slicing is assumed (the differ only emits in-bounds
residual commands; an out-of-bounds slice would panic in Rust, while `take`/`drop`
truncate — the truncating case is never exercised by the theorems below). -/
def buildOtherCmds (other_data : List Nat) : List CopyCmd → Nat → List Nat × List CopyCmd
  | [], _ => ([], [])
  | cmd :: rest, dataLen =>
    let slice := (other_data.drop cmd.source).take cmd.size
    let res := buildOtherCmds other_data rest (dataLen + slice.length)
    (slice ++ res.1, ⟨dataLen, cmd.target, cmd.size⟩ :: res.2)

def build_patch (other_data : List Nat) (patch_commands : PatchCommands) : Patch :=
  let built := buildOtherCmds other_data patch_commands.other 0
  ⟨built.1, optimize_copy_cmds patch_commands.base, optimize_copy_cmds built.2,
    other_data.length⟩

/-- Executing a list of commands in order against a fixed source buffer; any
out-of-bounds command panics in Rust, modelled by `none` (no output at all). -/
def execCmds (source : List Nat) : List CopyCmd → List Nat → Option (List Nat)
  | [], dest => some dest
  | cmd :: rest, dest =>
    match cmd.execute dest source with
    | some d => execCmds source rest d
    | none => none

/-- `apply_patch`: a zero-filled buffer of length `other_size`, then the `base`
commands (sourced from `base_data`), then the `other` commands (sourced from
`patch.data`). -/
def apply_patch (base_data : List Nat) (patch : Patch) : Option (List Nat) :=
  match execCmds base_data patch.base (List.replicate patch.other_size 0) with
  | some r => execCmds patch.data patch.other r
  | none => none

/-! ### Derived notions used by the statements -/

/-- `c` covers byte position `i` of the reconstruction target. -/
def coversB (c : CopyCmd) (i : Nat) : Bool := decide (c.target ≤ i ∧ i < c.target + c.size)

/-- Two commands have disjoint target ranges. -/
def tgtDisjoint (c d : CopyCmd) : Prop :=
  c.target + c.size ≤ d.target ∨ d.target + d.size ≤ c.target

instance (c d : CopyCmd) : Decidable (tgtDisjoint c d) :=
  inferInstanceAs (Decidable (_ ∨ _))

/-! ## Concrete evaluations settling the value-level claims -/

/-- C1.  The round-trip identity fails on the code: for `base = other = [0x01]` and
`block_size = 1` the differ detects synchronization and returns empty commands, so the
built patch has no commands at all, and `apply_patch` returns the zero-filled buffer
`[0x00]` instead of `other = [0x01]`.  (Spec §9 flags exactly this as a source bug.) -/
theorem c1_roundtrip_code_bug :
    apply_patch [1] (build_patch [1] (compute_diff [1] (compute_blocks [1] 1) 1))
      = some [0] ∧
    apply_patch [1] (build_patch [1] (compute_diff [1] (compute_blocks [1] 1) 1))
      ≠ some [1] := by
  constructor
  · rfl
  · decide

/-- C9.  For `base = "abcdefgh"`, `other = "XXabcdefgh"`, `block_size = 2`, the
pipeline produces exactly one 2-byte residual command at target 0 with data `"XX"`,
and the base command list coalesces to a single copy of size 8 from base offset 0 to
target 2 (with `other_size = 10`). -/
theorem c9_literal_scenario :
    build_patch [88, 88, 97, 98, 99, 100, 101, 102, 103, 104]
      (compute_diff [97, 98, 99, 100, 101, 102, 103, 104]
        (compute_blocks [88, 88, 97, 98, 99, 100, 101, 102, 103, 104] 2) 2)
      = ⟨[88, 88], [⟨0, 2, 8⟩], [⟨0, 0, 2⟩], 10⟩ := by
  rfl

/-- C4, counterexample.  For `base = other = [0x02]`, `block_size = 1`, the pipeline
produces the synchronized patch: no commands at all, but `other_size = 1`, so position
`0` of `[0, other_size)` is covered by no command — the target ranges do not partition
`[0, other_size)`. -/
theorem c4_tiling_counterexample :
    (build_patch [2] (compute_diff [2] (compute_blocks [2] 1) 1)).other_size = 1 ∧
    ((build_patch [2] (compute_diff [2] (compute_blocks [2] 1) 1)).base ++
        (build_patch [2] (compute_diff [2] (compute_blocks [2] 1) 1)).other).countP
      (fun c => coversB c 0) = 0 := by
  decide

/-- C5, counterexample.  For the command list `[⟨0,1,2⟩, ⟨0,0,2⟩]` (overlapping target
ranges), source buffer `[1,2]` and a zeroed 3-byte destination, the list executes to
`[1,2,2]` before coalescing but to `[1,1,2]` after: `optimize_copy_cmds` sorts the
commands by target, which changes the order of the overlapping writes. -/
theorem c5_coalesce_counterexample :
    execCmds [1, 2] (optimize_copy_cmds [⟨0, 1, 2⟩, ⟨0, 0, 2⟩]) (List.replicate 3 0)
      ≠ execCmds [1, 2] [⟨0, 1, 2⟩, ⟨0, 0, 2⟩] (List.replicate 3 0) := by
  decide

/-- C6, counterexample.  `optimize_copy_cmds` is not idempotent on arbitrary lists:
for `[⟨0,0,2⟩, ⟨9,1,0⟩, ⟨2,2,1⟩]` the zero-size middle command blocks the merge of its
neighbours on the first pass but is then discarded, so the second pass merges them. -/
theorem c6_idempotence_counterexample :
    optimize_copy_cmds (optimize_copy_cmds [⟨0, 0, 2⟩, ⟨9, 1, 0⟩, ⟨2, 2, 1⟩])
      ≠ optimize_copy_cmds [⟨0, 0, 2⟩, ⟨9, 1, 0⟩, ⟨2, 2, 1⟩] := by
  decide

/-- C8, counterexample.  A `sub` from the fresh state executes `count -= 1` on
`count = 0`: a trapping `usize` underflow (panic in a debug build) — the operation
sequence `[sub 0]` is not total, so the arithmetic is not total under wrapping
semantics as claimed (`a` and `b` wrap, `count` does not). -/
theorem c8_sub_underflow_counterexample :
    runOps [RHOp.sub 0] RollingHash.new = none := by
  decide

/-! ## Fingerprinting: characterization of `compute_blocks` -/

theorem div_up_zero (bs : Nat) (hbs : 1 ≤ bs) : div_up 0 bs = 0 := by
  unfold div_up
  rw [Nat.zero_add]
  exact Nat.div_eq_of_lt (by omega)

theorem div_up_eq_pred_div (L bs : Nat) (hbs : 1 ≤ bs) (hL : 1 ≤ L) :
    div_up L bs = (L - 1) / bs + 1 := by
  unfold div_up
  have h : L + bs - 1 = (L - 1) + bs := by omega
  rw [h, Nat.add_div_right _ hbs]

theorem div_up_succ_step (L bs : Nat) (hbs : 1 ≤ bs) (hL : 1 ≤ L) :
    div_up L bs = div_up (L - bs) bs + 1 := by
  rcases le_or_lt L bs with h | h
  · have h1 : L - bs = 0 := by omega
    have h3 : (L - 1) / bs = 0 := Nat.div_eq_of_lt (by omega)
    rw [h1, div_up_zero bs hbs, div_up_eq_pred_div L bs hbs hL, h3]
  · have h4 : (L - 1) / bs = (L - 1 - bs) / bs + 1 :=
      Nat.div_eq_sub_div hbs (by omega : bs ≤ L - 1)
    rw [div_up_eq_pred_div L bs hbs hL, div_up_eq_pred_div (L - bs) bs hbs (by omega),
      h4]
    have h2 : L - 1 - bs = L - bs - 1 := by omega
    rw [h2]

theorem lt_div_up_iff (L bs k : Nat) (hbs : 1 ≤ bs) : k < div_up L bs ↔ bs * k < L := by
  rcases Nat.eq_zero_or_pos L with hL | hL
  · subst hL
    rw [div_up_zero bs hbs]
    omega
  · rw [div_up_eq_pred_div L bs hbs hL]
    have h1 : k < (L - 1) / bs + 1 ↔ k ≤ (L - 1) / bs := by omega
    rw [h1, Nat.le_div_iff_mul_le hbs, Nat.mul_comm]
    omega

/-- The block built for the chunk with content `c` at byte offset `off`. -/
def blockOf (off : Nat) (c : List Nat) : Block :=
  ⟨off, c.length, compute_hash_weak c, compute_hash_strong c⟩

/-- The `k`-th fixed-size chunk of `input`. -/
def chunkAt (input : List Nat) (bs k : Nat) : List Nat := (input.drop (bs * k)).take bs

theorem take_min_length (l : List α) (m : Nat) : l.take (min l.length m) = l.take m := by
  rcases le_total l.length m with h | h
  · rw [Nat.min_eq_left h, List.take_length, List.take_of_length_le h]
  · rw [Nat.min_eq_right h]

theorem computeBlocksAux_eq (bs : Nat) (hbs : 1 ≤ bs) :
    ∀ (fuel : Nat) (input : List Nat) (off : Nat), input.length ≤ fuel →
      computeBlocksAux bs fuel input off =
        (List.range (div_up input.length bs)).map fun k =>
          blockOf (off + bs * k) (chunkAt input bs k) := by
  intro fuel
  induction fuel with
  | zero =>
    intro input off h
    have hnil : input = [] := List.length_eq_zero.mp (Nat.le_zero.mp h)
    subst hnil
    simp [computeBlocksAux, div_up_zero bs hbs]
  | succ f ih =>
    intro input off h
    match input with
    | [] => simp [computeBlocksAux, div_up_zero bs hbs]
    | x :: xs =>
      have hdrop : ((x :: xs).drop bs).length ≤ f := by
        simp only [List.length_drop, List.length_cons] at h ⊢
        omega
      rw [computeBlocksAux, ih ((x :: xs).drop bs) (off + bs) hdrop,
        div_up_succ_step (x :: xs).length bs hbs (by simp), List.length_drop,
        List.range_succ_eq_map, List.map_cons, List.map_map]
      refine congrArg₂ List.cons ?_ ?_
      · simp [blockOf, chunkAt]
      · refine List.map_congr_left fun k _ => ?_
        simp only [Function.comp_apply, blockOf, chunkAt, List.drop_drop]
        have harith : bs * (k + 1) = bs * k + bs := by ring
        rw [harith]
        have hoff : off + (bs * k + bs) = off + bs + bs * k := by ring
        have hcomm : bs + bs * k = bs * k + bs := Nat.add_comm bs (bs * k)
        rw [hoff, hcomm]

theorem compute_blocks_eq (input : List Nat) (bs : Nat) (hbs : 1 ≤ bs) :
    compute_blocks input bs = (List.range (div_up input.length bs)).map fun k =>
      blockOf (bs * k) (chunkAt input bs k) := by
  unfold compute_blocks
  rw [computeBlocksAux_eq bs hbs input.length input 0 (Nat.le_refl _)]
  simp

theorem compute_blocks_length (input : List Nat) (bs : Nat) (hbs : 1 ≤ bs) :
    (compute_blocks input bs).length = div_up input.length bs := by
  rw [compute_blocks_eq input bs hbs, List.length_map, List.length_range]

theorem sumSizes_computeBlocksAux (bs : Nat) (hbs : 1 ≤ bs) :
    ∀ (fuel : Nat) (input : List Nat) (off : Nat), input.length ≤ fuel →
      sumSizes (computeBlocksAux bs fuel input off) = input.length := by
  intro fuel
  induction fuel with
  | zero =>
    intro input off h
    have hnil : input = [] := List.length_eq_zero.mp (Nat.le_zero.mp h)
    subst hnil
    rfl
  | succ f ih =>
    intro input off h
    match input with
    | [] => rfl
    | x :: xs =>
      have hdrop : ((x :: xs).drop bs).length ≤ f := by
        simp only [List.length_drop, List.length_cons] at h ⊢
        omega
      rw [computeBlocksAux]
      show ((x :: xs).take bs).length + sumSizes (computeBlocksAux bs f ((x :: xs).drop bs) (off + bs)) = _
      rw [ih ((x :: xs).drop bs) (off + bs) hdrop, List.length_take, List.length_drop]
      simp only [List.length_cons]
      omega

theorem sumSizes_compute_blocks (input : List Nat) (bs : Nat) (hbs : 1 ≤ bs) :
    sumSizes (compute_blocks input bs) = input.length :=
  sumSizes_computeBlocksAux bs hbs input.length input 0 (Nat.le_refl _)

theorem getD_map_range (f : Nat → α) (n k : Nat) (d : α) (h : k < n) :
    ((List.range n).map f).getD k d = f k := by
  rw [List.getD_eq_getElem?_getD, List.getElem?_map, List.getElem?_range h]
  rfl

/-- C7.  `compute_blocks` characterization: `ceil(L/B)` blocks in input order, offsets
`0, B, 2B, …`; every block but the last has size `B` and the last has size `L mod B`
(or `B` when `B` divides `L`); the weak hash of each block is the rolling hash of its
chunk from a fresh state and the strong hash is the (modelled) truncated-BLAKE3
fingerprint of its chunk; empty input gives an empty list. -/
theorem c7_compute_blocks_shape (input : List Nat) (bs k : Nat) (hbs : 1 ≤ bs) :
    (compute_blocks input bs).length = (input.length + bs - 1) / bs ∧
    (input = [] → compute_blocks input bs = []) ∧
    (k < (compute_blocks input bs).length →
      ((compute_blocks input bs).getD k ⟨0, 0, 0, []⟩).offset = bs * k ∧
      ((compute_blocks input bs).getD k ⟨0, 0, 0, []⟩).hash_weak
        = compute_hash_weak (chunkAt input bs k) ∧
      ((compute_blocks input bs).getD k ⟨0, 0, 0, []⟩).hash_strong
        = compute_hash_strong (chunkAt input bs k) ∧
      (k + 1 < (compute_blocks input bs).length →
        ((compute_blocks input bs).getD k ⟨0, 0, 0, []⟩).size = bs) ∧
      (k + 1 = (compute_blocks input bs).length →
        ((compute_blocks input bs).getD k ⟨0, 0, 0, []⟩).size =
          if input.length % bs = 0 then bs else input.length % bs)) := by
  have hlen := compute_blocks_length input bs hbs
  refine ⟨hlen, ?_, ?_⟩
  · intro hnil
    subst hnil
    rfl
  · intro hk
    rw [hlen] at hk
    have hget : (compute_blocks input bs).getD k ⟨0, 0, 0, []⟩
        = blockOf (bs * k) (chunkAt input bs k) := by
      rw [compute_blocks_eq input bs hbs, getD_map_range _ _ _ _ hk]
    rw [hget]
    have hklt : bs * k < input.length := (lt_div_up_iff input.length bs k hbs).mp hk
    have hsize : (chunkAt input bs k).length = min bs (input.length - bs * k) := by
      rw [chunkAt, List.length_take, List.length_drop]
    refine ⟨rfl, rfl, rfl, ?_, ?_⟩
    · intro hk1
      rw [hlen] at hk1
      have h1 : bs * (k + 1) < input.length := (lt_div_up_iff input.length bs (k + 1) hbs).mp hk1
      have h2 : bs * (k + 1) = bs * k + bs := by ring
      show (chunkAt input bs k).length = bs
      rw [hsize]
      omega
    · intro hk1
      rw [hlen] at hk1
      have h1 : ¬ (k + 1 < div_up input.length bs) := by omega
      have h2 : ¬ (bs * (k + 1) < input.length) := fun hc =>
        h1 ((lt_div_up_iff input.length bs (k + 1) hbs).mpr hc)
      have h3 : bs * (k + 1) = bs * k + bs := by ring
      have h4 : input.length ≤ bs * k + bs := by omega
      have hmod : input.length % bs = (input.length - bs * k) % bs := by
        conv_lhs => rw [← Nat.sub_add_cancel (Nat.le_of_lt hklt)]
        rw [Nat.add_mul_mod_self_left]
      show (chunkAt input bs k).length = _
      rw [hsize, hmod]
      rcases Nat.lt_or_ge (input.length - bs * k) bs with h5 | h5
      · rw [Nat.mod_eq_of_lt h5, if_neg (by omega)]
        omega
      · have h6 : input.length - bs * k = bs := by omega
        rw [h6, Nat.mod_self, if_pos rfl]
        omega

/-- Witness for C7 at `input = [10, 20, 30]`, `block_size = 2`, `k = 1`. -/
theorem c7_compute_blocks_shape_witness :
    (1 ≤ 2) ∧
    ((compute_blocks [10, 20, 30] 2).length = (([10, 20, 30] : List Nat).length + 2 - 1) / 2 ∧
    (([10, 20, 30] : List Nat) = [] → compute_blocks [10, 20, 30] 2 = []) ∧
    (1 < (compute_blocks [10, 20, 30] 2).length →
      ((compute_blocks [10, 20, 30] 2).getD 1 ⟨0, 0, 0, []⟩).offset = 2 * 1 ∧
      ((compute_blocks [10, 20, 30] 2).getD 1 ⟨0, 0, 0, []⟩).hash_weak
        = compute_hash_weak (chunkAt [10, 20, 30] 2 1) ∧
      ((compute_blocks [10, 20, 30] 2).getD 1 ⟨0, 0, 0, []⟩).hash_strong
        = compute_hash_strong (chunkAt [10, 20, 30] 2 1) ∧
      (1 + 1 < (compute_blocks [10, 20, 30] 2).length →
        ((compute_blocks [10, 20, 30] 2).getD 1 ⟨0, 0, 0, []⟩).size = 2) ∧
      (1 + 1 = (compute_blocks [10, 20, 30] 2).length →
        ((compute_blocks [10, 20, 30] 2).getD 1 ⟨0, 0, 0, []⟩).size =
          if ([10, 20, 30] : List Nat).length % 2 = 0 then 2
          else ([10, 20, 30] : List Nat).length % 2))) :=
  ⟨by decide, c7_compute_blocks_shape [10, 20, 30] 2 1 (by decide)⟩

/-! ## `apply_patch` bounds checking (C3) -/

theorem execute_length {cmd : CopyCmd} {dest src d : List Nat}
    (h : cmd.execute dest src = some d) : d.length = dest.length := by
  unfold CopyCmd.execute at h
  split at h
  · rename_i hb
    have hd := (Option.some_inj.mp h).symm
    subst hd
    simp only [List.length_append, List.length_take, List.length_drop]
    omega
  · exact absurd h (by simp)

theorem execute_none {cmd : CopyCmd} {dest src : List Nat}
    (h : src.length < cmd.source + cmd.size ∨ dest.length < cmd.target + cmd.size) :
    cmd.execute dest src = none := by
  unfold CopyCmd.execute
  rw [if_neg]
  omega

theorem execCmds_length {src : List Nat} :
    ∀ {l : List CopyCmd} {dest d : List Nat}, execCmds src l dest = some d →
      d.length = dest.length := by
  intro l
  induction l with
  | nil =>
    intro dest d h
    rw [execCmds] at h
    rw [Option.some_inj.mp h]
  | cons c rest ih =>
    intro dest d h
    rw [execCmds] at h
    split at h
    · rename_i d1 h1
      rw [ih h, execute_length h1]
    · exact absurd h (by simp)

theorem execCmds_none {src : List Nat} :
    ∀ {l : List CopyCmd} {dest : List Nat},
      (∃ c ∈ l, src.length < c.source + c.size ∨ dest.length < c.target + c.size) →
      execCmds src l dest = none := by
  intro l
  induction l with
  | nil =>
    intro dest h
    exact absurd h (by simp)
  | cons c rest ih =>
    intro dest h
    rw [execCmds]
    rcases h with ⟨c', hc', hviol⟩
    rcases List.mem_cons.mp hc' with hhead | htail
    · subst hhead
      rw [execute_none hviol]
    · split
      · rename_i d1 h1
        exact ih ⟨c', htail, by rw [execute_length h1]; exact hviol⟩
      · rfl

/-- C3.  `apply_patch` fails — returning no output at all — on any patch containing a
command whose target range extends beyond `other_size`, any `base` command whose source
range extends beyond the base buffer, or any `other` command whose source range extends
beyond the residual `data`.  (In the Rust code the failure is the out-of-bounds slice
panic inside `CopyCmd::execute`, modelled as `none`; the caller receives no partial
output.) -/
theorem c3_apply_patch_rejects_out_of_range (base_data : List Nat) (patch : Patch)
    (h : (∃ c ∈ patch.base,
            base_data.length < c.source + c.size ∨ patch.other_size < c.target + c.size) ∨
         (∃ c ∈ patch.other,
            patch.data.length < c.source + c.size ∨ patch.other_size < c.target + c.size)) :
    apply_patch base_data patch = none := by
  unfold apply_patch
  rcases h with hbase | hother
  · rw [execCmds_none (by simpa using hbase)]
  · split
    · rename_i r hr
      have hrlen : r.length = patch.other_size := by
        rw [execCmds_length hr, List.length_replicate]
      exact execCmds_none (by rw [hrlen]; exact hother)
    · rfl

/-- Witness for C3: a patch whose single base command writes past `other_size = 0`. -/
theorem c3_apply_patch_rejects_out_of_range_witness :
    ((∃ c ∈ (⟨[], [⟨0, 0, 1⟩], [], 0⟩ : Patch).base,
        ([] : List Nat).length < c.source + c.size ∨
          (⟨[], [⟨0, 0, 1⟩], [], 0⟩ : Patch).other_size < c.target + c.size) ∨
     (∃ c ∈ (⟨[], [⟨0, 0, 1⟩], [], 0⟩ : Patch).other,
        (⟨[], [⟨0, 0, 1⟩], [], 0⟩ : Patch).data.length < c.source + c.size ∨
          (⟨[], [⟨0, 0, 1⟩], [], 0⟩ : Patch).other_size < c.target + c.size)) ∧
    apply_patch [] (⟨[], [⟨0, 0, 1⟩], [], 0⟩ : Patch) = none :=
  ⟨Or.inl ⟨⟨0, 0, 1⟩, by decide, by decide⟩,
   c3_apply_patch_rejects_out_of_range [] ⟨[], [⟨0, 0, 1⟩], [], 0⟩
     (Or.inl ⟨⟨0, 0, 1⟩, by decide, by decide⟩)⟩

/-! ## Rolling-hash operation sequences (C8) -/

def RHOp.isSub : RHOp → Bool
  | RHOp.sub _ => true
  | _ => false

theorem runOps_isSome_of_balanced :
    ∀ (ops : List RHOp) (st : RollingHash),
      (∀ i, i < ops.length → (ops.getD i RHOp.get).isSub = true →
        countSubs (ops.take i) < st.count + countAdds (ops.take i)) →
      (runOps ops st).isSome = true := by
  intro ops
  induction ops with
  | nil => intro st h; rfl
  | cons op rest ih =>
    intro st h
    match op with
    | RHOp.add x =>
      rw [runOps]
      apply ih
      intro i hi hsub
      have h1 := h (i + 1) (by simpa using hi) (by simpa using hsub)
      simp only [List.take_succ_cons, countAdds, countSubs] at h1
      have hc : (st.add x).count = st.count + 1 := rfl
      omega
    | RHOp.sub x =>
      rw [runOps]
      have h0 := h 0 (by simp) (by simp [RHOp.isSub])
      simp only [List.take_zero, countSubs, countAdds] at h0
      rw [if_neg (by omega)]
      apply ih
      intro i hi hsub
      have h1 := h (i + 1) (by simpa using hi) (by simpa using hsub)
      simp only [List.take_succ_cons, countAdds, countSubs] at h1
      have hc : (st.sub x).count = st.count - 1 := rfl
      omega
    | RHOp.get =>
      rw [runOps]
      apply ih
      intro i hi hsub
      have h1 := h (i + 1) (by simpa using hi) (by simpa using hsub)
      simp only [List.take_succ_cons, countAdds, countSubs] at h1
      omega

/-- C8, amended.  The claim fails as stated (see the counterexample: a `sub` from the
fresh state underflows `count`), but arithmetic on `a` and `b` is genuinely wrapping
and total; the only trap is the `count` bookkeeping.  Amended claim: every operation
sequence from a fresh state in which each `sub` is preceded by strictly more `add`s
than `sub`s executes to completion (no panic / overflow trap). -/
theorem c8_rolling_hash_totality_amended (ops : List RHOp)
    (h : ∀ i, i < ops.length → (ops.getD i RHOp.get).isSub = true →
      countSubs (ops.take i) < countAdds (ops.take i)) :
    (runOps ops RollingHash.new).isSome = true :=
  runOps_isSome_of_balanced ops RollingHash.new (by
    intro i hi hs
    have h1 := h i hi hs
    simpa [RollingHash.new] using h1)

/-- Witness for the amended C8 at `ops = [add 5, sub 4]`. -/
theorem c8_rolling_hash_totality_amended_witness :
    (runOps [RHOp.add 5, RHOp.sub 4] RollingHash.new).isSome = true :=
  c8_rolling_hash_totality_amended [RHOp.add 5, RHOp.sub 4] (by
    intro i hi hs
    simp only [List.length_cons, List.length_nil] at hi
    interval_cases i
    · simp [RHOp.isSub] at hs
    · decide)

/-! ## The differ on an empty other-block list (C10) -/

theorem scanLoop_nil_sets (input : List Nat) (bs : Nat) :
    ∀ (fuel wb : Nat) (rh : RollingHash) (hmap : List (List Nat × Nat))
      (seq : List (List Nat)),
      scanLoop input bs [] [] fuel wb rh hmap seq = (hmap, seq) := by
  intro fuel
  induction fuel with
  | zero => intro wb rh hmap seq; rfl
  | succ f ih =>
    intro wb rh hmap seq
    simp only [scanLoop]
    split
    · rfl
    · have hfind : ∀ (b e hw : Nat), find_base_block input [] [] b e hw = none := by
        intro b e hw
        rw [find_base_block, if_neg (by simp)]
      rw [hfind]
      exact ih _ _ _ _

/-- C10.  Fingerprinting an empty `other` yields no blocks, and `compute_diff` of any
base against an empty block list returns the empty `PatchCommands` — the very value
whose `is_synchronized()` signals "base equals other".  The synchronization signal
therefore cannot distinguish "base equals other" from "other is empty". -/
theorem c10_empty_other_looks_synchronized (base : List Nat) (bs : Nat) (hbs : 1 ≤ bs) :
    compute_blocks ([] : List Nat) bs = [] ∧
    compute_diff base (compute_blocks [] bs) bs = PatchCommands.new ∧
    (compute_diff base (compute_blocks [] bs) bs).is_synchronized = true := by
  have hdiff : compute_diff base (compute_blocks [] bs) bs = PatchCommands.new := by
    show compute_diff base [] bs = PatchCommands.new
    unfold compute_diff
    simp only [List.map_nil]
    rw [scanLoop_nil_sets base bs (base.length + 1) 0 RollingHash.new [] []]
    split
    · rfl
    · rfl
  exact ⟨rfl, hdiff, by rw [hdiff]; rfl⟩

/-- Witness for C10 at `base = [7]` (nonempty), `block_size = 1`. -/
theorem c10_empty_other_looks_synchronized_witness :
    compute_blocks ([] : List Nat) 1 = [] ∧
    compute_diff [7] (compute_blocks [] 1) 1 = PatchCommands.new ∧
    (compute_diff [7] (compute_blocks [] 1) 1).is_synchronized = true :=
  c10_empty_other_looks_synchronized [7] 1 (by decide)

/-! ## The self-scan: diffing a sequence against its own blocks (C2) -/

theorem scanLoop_done (input : List Nat) (bs : Nat) (weakSet : List Nat)
    (strongSet : List (List Nat)) (fuel wb : Nat) (rh : RollingHash)
    (hmap : List (List Nat × Nat)) (seq : List (List Nat))
    (hwb : input.length ≤ wb) (hfuel : 1 ≤ fuel) :
    scanLoop input bs weakSet strongSet fuel wb rh hmap seq = (hmap, seq) := by
  match fuel, hfuel with
  | f + 1, _ =>
    simp only [scanLoop]
    rw [if_pos (by omega)]

theorem scanLoop_self (input : List Nat) (bs : Nat) (hbs : 1 ≤ bs) :
    ∀ (fuel k : Nat) (hmap : List (List Nat × Nat)) (seq : List (List Nat)),
      k ≤ div_up input.length bs →
      input.length - bs * k + 1 ≤ fuel →
      (scanLoop input bs
          ((List.range (div_up input.length bs)).map fun j =>
            compute_hash_weak (chunkAt input bs j))
          ((List.range (div_up input.length bs)).map fun j => chunkAt input bs j)
          fuel (bs * k) RollingHash.new hmap seq).2
        = seq ++ (List.range (div_up input.length bs - k)).map fun j =>
            chunkAt input bs (k + j) := by
  intro fuel
  induction fuel with
  | zero => intro k hmap seq hk hfuel; omega
  | succ f ih =>
    intro k hmap seq hk hfuel
    by_cases hklt : k < div_up input.length bs
    · have hbk : bs * k < input.length := (lt_div_up_iff input.length bs k hbs).mp hklt
      simp only [scanLoop]
      rw [if_neg (by omega)]
      -- the window content is exactly chunk `k`
      have hwin : (input.drop (bs * k + RollingHash.new.count)).take
          (min (input.length - bs * k) bs - RollingHash.new.count) = chunkAt input bs k := by
        show (input.drop (bs * k + 0)).take (min (input.length - bs * k) bs - 0) = _
        rw [Nat.add_zero, Nat.sub_zero, chunkAt, ← List.length_drop,
          take_min_length (input.drop (bs * k)) bs]
      rw [hwin]
      have hslice : (input.drop (bs * k)).take
          (bs * k + min (input.length - bs * k) bs - bs * k) = chunkAt input bs k := by
        have h1 : bs * k + min (input.length - bs * k) bs - bs * k
            = min (input.length - bs * k) bs := by omega
        rw [h1, chunkAt, ← List.length_drop, take_min_length (input.drop (bs * k)) bs]
      have hmemw : (RollingHash.new.update (chunkAt input bs k)).get
          ∈ (List.range (div_up input.length bs)).map fun j =>
              compute_hash_weak (chunkAt input bs j) :=
        List.mem_map.mpr ⟨k, List.mem_range.mpr hklt, rfl⟩
      have hmems : compute_hash_strong (chunkAt input bs k)
          ∈ (List.range (div_up input.length bs)).map fun j => chunkAt input bs j :=
        List.mem_map.mpr ⟨k, List.mem_range.mpr hklt, rfl⟩
      have hfind : find_base_block input
          ((List.range (div_up input.length bs)).map fun j =>
            compute_hash_weak (chunkAt input bs j))
          ((List.range (div_up input.length bs)).map fun j => chunkAt input bs j)
          (bs * k) (bs * k + min (input.length - bs * k) bs)
          (RollingHash.new.update (chunkAt input bs k)).get
          = some ⟨bs * k, bs * k + min (input.length - bs * k) bs - bs * k,
              (RollingHash.new.update (chunkAt input bs k)).get, chunkAt input bs k⟩ := by
        unfold find_base_block
        rw [if_pos hmemw]
        simp only [hslice]
        rw [if_pos hmems]
        rfl
      rw [hfind]
      dsimp only
      rcases le_or_lt (input.length - bs * k) bs with hlast | hmore
      · -- last chunk: the window ends the scan
        have htws : min (input.length - bs * k) bs = input.length - bs * k :=
          Nat.min_eq_left hlast
        have hn1 : div_up input.length bs = k + 1 := by
          have h2 : ¬ (k + 1 < div_up input.length bs) := by
            intro hc
            have h3 := (lt_div_up_iff input.length bs (k + 1) hbs).mp hc
            have h4 : bs * (k + 1) = bs * k + bs := by ring
            omega
          omega
        have hdone := scanLoop_done input bs
          ((List.range (div_up input.length bs)).map fun j =>
            compute_hash_weak (chunkAt input bs j))
          ((List.range (div_up input.length bs)).map fun j => chunkAt input bs j)
          f (bs * k + (input.length - bs * k)) RollingHash.new
          ((chunkAt input bs k, bs * k) :: hmap) (seq ++ [chunkAt input bs k])
          (by omega) (by omega)
        rw [htws, hdone, hn1]
        have h9 : k + 1 - k = 1 := by omega
        rw [h9]
        simp [List.range_succ]
      · -- full chunk: continue at the next block boundary
        have htws : min (input.length - bs * k) bs = bs := Nat.min_eq_right (by omega)
        have hsucc : bs * k + bs = bs * (k + 1) := by ring
        have hk1 : k + 1 ≤ div_up input.length bs := by
          have h3 : bs * (k + 1) < input.length := by omega
          exact Nat.le_of_lt ((lt_div_up_iff input.length bs (k + 1) hbs).mpr h3)
        have hfa : input.length - bs * (k + 1) + 1 ≤ f := by
          have h4 : bs * (k + 1) = bs * k + bs := by ring
          omega
        rw [htws, hsucc, ih (k + 1) _ _ hk1 hfa]
        have hnk : div_up input.length bs - k = (div_up input.length bs - (k + 1)) + 1 := by
          omega
        rw [hnk, List.range_succ_eq_map, List.map_cons, List.map_map,
          List.append_assoc]
        refine congrArg (List.append seq) ?_
        rw [List.singleton_append]
        refine congrArg₂ List.cons (by rw [Nat.add_zero]) ?_
        refine List.map_congr_left fun j _ => ?_
        simp only [Function.comp_apply]
        have h5 : k + (j + 1) = k + 1 + j := by ring
        rw [h5]
    · -- all chunks consumed: `wb` is at or past the end
      have hbk : input.length ≤ bs * k := by
        by_contra hc
        exact hklt ((lt_div_up_iff input.length bs k hbs).mpr (by omega))
      rw [scanLoop_done _ _ _ _ (f + 1) _ _ _ _ hbk (by omega)]
      have h6 : div_up input.length bs - k = 0 := by omega
      rw [h6]
      simp

theorem mem_zip_map_self (f : α → β) :
    ∀ (l : List α) (p : β × α), p ∈ (l.map f).zip l → p.1 = f p.2 := by
  intro l
  induction l with
  | nil => intro p hp; simp at hp
  | cons a rest ih =>
    intro p hp
    rw [List.map_cons, List.zip_cons_cons, List.mem_cons] at hp
    rcases hp with h | h
    · rw [h]
    · exact ih p h

theorem is_synchronized_self (blocks : List Block) :
    is_synchronized (blocks.map Block.hash_strong) blocks = true := by
  unfold is_synchronized
  rw [Bool.and_eq_true]
  refine ⟨by simp, ?_⟩
  rw [List.all_eq_true]
  intro p hp
  rw [decide_eq_true_eq]
  exact mem_zip_map_self Block.hash_strong blocks p hp

/-- Diffing a sequence against its own fingerprint blocks always reports
synchronization: the scan matches every aligned window, so `sequence` reproduces the
blocks' strong hashes and the synchronized (empty) `PatchCommands` is returned. -/
theorem compute_diff_self (other : List Nat) (bs : Nat) (hbs : 1 ≤ bs) :
    compute_diff other (compute_blocks other bs) bs = PatchCommands.new := by
  simp only [compute_diff]
  have hws : (compute_blocks other bs).map Block.hash_weak
      = (List.range (div_up other.length bs)).map fun j =>
          compute_hash_weak (chunkAt other bs j) := by
    rw [compute_blocks_eq other bs hbs, List.map_map]
    rfl
  have hss : (compute_blocks other bs).map Block.hash_strong
      = (List.range (div_up other.length bs)).map fun j => chunkAt other bs j := by
    rw [compute_blocks_eq other bs hbs, List.map_map]
    rfl
  rw [hws, hss]
  have hscan := scanLoop_self other bs hbs (other.length + 1) 0 [] []
    (Nat.zero_le _) (by omega)
  rw [Nat.mul_zero] at hscan
  rw [hscan]
  rw [if_neg]
  rw [not_or]
  constructor
  · rw [sumSizes_compute_blocks other bs hbs]
    omega
  · simp only [Nat.sub_zero, Nat.zero_add, List.nil_append]
    have h7 : (List.range (div_up other.length bs)).map (fun j => chunkAt other bs j)
        = (compute_blocks other bs).map Block.hash_strong := hss.symm
    rw [h7, is_synchronized_self]
    simp

/-- C2.  For bytewise-equal (nonempty) inputs the differ returns the empty
`PatchCommands`; `build_patch` of it over `other` yields a patch with empty `data`,
empty command lists, and `other_size = |other|`; and `apply_patch` of that patch
returns the zero-filled buffer of length `|other|`. -/
theorem c2_self_synchronization (other : List Nat) (bs : Nat) (hne : other ≠ [])
    (hbs : 1 ≤ bs) :
    compute_diff other (compute_blocks other bs) bs = PatchCommands.new ∧
    build_patch other (compute_diff other (compute_blocks other bs) bs)
      = ⟨[], [], [], other.length⟩ ∧
    apply_patch other (build_patch other (compute_diff other (compute_blocks other bs) bs))
      = some (List.replicate other.length 0) := by
  have hd := compute_diff_self other bs hbs
  refine ⟨hd, ?_, ?_⟩
  · rw [hd]
    rfl
  · rw [hd]
    rfl

/-- Witness for C2 at `other = [5, 6, 7]`, `block_size = 2`. -/
theorem c2_self_synchronization_witness :
    compute_diff [5, 6, 7] (compute_blocks [5, 6, 7] 2) 2 = PatchCommands.new ∧
    build_patch [5, 6, 7] (compute_diff [5, 6, 7] (compute_blocks [5, 6, 7] 2) 2)
      = ⟨[], [], [], ([5, 6, 7] : List Nat).length⟩ ∧
    apply_patch [5, 6, 7]
        (build_patch [5, 6, 7] (compute_diff [5, 6, 7] (compute_blocks [5, 6, 7] 2) 2))
      = some (List.replicate ([5, 6, 7] : List Nat).length 0) :=
  c2_self_synchronization [5, 6, 7] 2 (by decide) (by decide)

/-! ## Coalescing: idempotence on zero-free lists (C6) -/

theorem coalesceWalk_target_mem : ∀ (l : List CopyCmd) (prev : CopyCmd),
    ∀ y ∈ coalesceWalk prev l, ∃ x ∈ prev :: l, y.target = x.target := by
  intro l
  induction l with
  | nil =>
    intro prev y hy
    rw [coalesceWalk] at hy
    exact ⟨prev, List.mem_cons_self _ _, by rw [List.mem_singleton.mp hy]⟩
  | cons curr rest ih =>
    intro prev y hy
    rw [coalesceWalk] at hy
    split at hy
    · rcases List.mem_cons.mp hy with h | h
      · exact ⟨prev, List.mem_cons_self _ _, by rw [h]⟩
      · rcases ih _ y h with ⟨x, hx, hxy⟩
        rcases List.mem_cons.mp hx with h2 | h2
        · exact ⟨prev, List.mem_cons_self _ _, by rw [hxy, h2]⟩
        · exact ⟨x, List.mem_cons_of_mem _ (List.mem_cons_of_mem _ h2), hxy⟩
    · rcases List.mem_cons.mp hy with h | h
      · exact ⟨prev, List.mem_cons_self _ _, by rw [h]⟩
      · rcases ih _ y h with ⟨x, hx, hxy⟩
        exact ⟨x, List.mem_cons_of_mem _ hx, hxy⟩

theorem coalesceWalk_sorted : ∀ (l : List CopyCmd) (prev : CopyCmd),
    List.Sorted cmdLE (prev :: l) → List.Sorted cmdLE (coalesceWalk prev l) := by
  intro l
  induction l with
  | nil =>
    intro prev h
    rw [coalesceWalk]
    exact List.sorted_singleton prev
  | cons curr rest ih =>
    intro prev h
    have hpc : cmdLE prev curr := (List.sorted_cons.mp h).1 curr (List.mem_cons_self _ _)
    have hprest : ∀ x ∈ rest, cmdLE prev x := fun x hx =>
      (List.sorted_cons.mp h).1 x (List.mem_cons_of_mem _ hx)
    have htail : List.Sorted cmdLE (curr :: rest) := (List.sorted_cons.mp h).2
    rw [coalesceWalk]
    split
    · rename_i hm
      have hmerged : List.Sorted cmdLE
          ((⟨prev.source, prev.target, curr.size + prev.size⟩ : CopyCmd) :: rest) := by
        rw [List.sorted_cons]
        exact ⟨fun x hx => hprest x hx, (List.sorted_cons.mp htail).2⟩
      rw [List.sorted_cons]
      refine ⟨?_, ih _ hmerged⟩
      intro y hy
      rcases coalesceWalk_target_mem rest _ y hy with ⟨x, hx, hxy⟩
      rcases List.mem_cons.mp hx with h2 | h2
      · show (⟨prev.source, prev.target, 0⟩ : CopyCmd).target ≤ y.target
        rw [hxy, h2]
      · show (⟨prev.source, prev.target, 0⟩ : CopyCmd).target ≤ y.target
        rw [hxy]
        exact hprest x h2
    · rw [List.sorted_cons]
      refine ⟨?_, ih _ htail⟩
      intro y hy
      rcases coalesceWalk_target_mem rest curr y hy with ⟨x, hx, hxy⟩
      rcases List.mem_cons.mp hx with h2 | h2
      · show prev.target ≤ y.target
        rw [hxy, h2]
        exact hpc
      · show prev.target ≤ y.target
        rw [hxy]
        exact hprest x h2

theorem coalesceWalk_filter_spec : ∀ (l : List CopyCmd) (prev : CopyCmd),
    prev.size ≠ 0 → (∀ c ∈ l, c.size ≠ 0) →
    ∃ (s : Nat) (tl : List CopyCmd),
      (coalesceWalk prev l).filter (fun c => decide (c.size ≠ 0))
        = ⟨prev.source, prev.target, s⟩ :: tl ∧
      prev.size ≤ s ∧
      List.Chain' (fun p c => ¬ mergeable p c) (⟨prev.source, prev.target, s⟩ :: tl) := by
  intro l
  induction l with
  | nil =>
    intro prev hp _
    refine ⟨prev.size, [], ?_, Nat.le_refl _, List.chain'_singleton _⟩
    rw [coalesceWalk, List.filter_cons]
    simp [hp]
  | cons curr rest ih =>
    intro prev hp hl
    have hcurr : curr.size ≠ 0 := hl curr (List.mem_cons_self _ _)
    have hrest : ∀ c ∈ rest, c.size ≠ 0 := fun c hc => hl c (List.mem_cons_of_mem _ hc)
    rw [coalesceWalk]
    split
    · rename_i hm
      rcases ih ⟨prev.source, prev.target, curr.size + prev.size⟩ (by simp; omega) hrest
        with ⟨s, tl, heq, hs, hchain⟩
      refine ⟨s, tl, ?_, by simp at hs ⊢; omega, hchain⟩
      rw [List.filter_cons]
      simpa using heq
    · rename_i hm
      rcases ih curr hcurr hrest with ⟨s, tl, heq, hs, hchain⟩
      refine ⟨prev.size, ⟨curr.source, curr.target, s⟩ :: tl, ?_, Nat.le_refl _, ?_⟩
      · rw [List.filter_cons_of_pos (by simpa using hp), heq]
      · rw [List.chain'_cons]
        refine ⟨?_, hchain⟩
        intro hmerge
        rcases hmerge with ⟨h1, h2, h3⟩
        simp only at h1 h2 h3
        exact hm ⟨h1, h2, by omega⟩

theorem coalesceWalk_of_chain : ∀ (l : List CopyCmd) (prev : CopyCmd),
    List.Chain' (fun p c => ¬ mergeable p c) (prev :: l) → coalesceWalk prev l = prev :: l := by
  intro l
  induction l with
  | nil => intro prev _; rfl
  | cons curr rest ih =>
    intro prev h
    rw [coalesceWalk, if_neg (List.chain'_cons.mp h).1, ih curr (List.chain'_cons.mp h).2]

/-- The three-part normal form of `optimize_copy_cmds` output on zero-free input:
no zero sizes, sorted by target, and no adjacent mergeable pair. -/
theorem optimize_normalized (l : List CopyCmd) (hz : ∀ c ∈ l, c.size ≠ 0) :
    (∀ c ∈ optimize_copy_cmds l, c.size ≠ 0) ∧
    List.Sorted cmdLE (optimize_copy_cmds l) ∧
    List.Chain' (fun p c => ¬ mergeable p c) (optimize_copy_cmds l) := by
  unfold optimize_copy_cmds
  split
  · rename_i hlen
    have hsorted : List.Sorted cmdLE (List.insertionSort cmdLE l) :=
      List.sorted_insertionSort cmdLE l
    have hzs : ∀ c ∈ List.insertionSort cmdLE l, c.size ≠ 0 := fun c hc =>
      hz c ((List.mem_insertionSort cmdLE).mp hc)
    match hs : List.insertionSort cmdLE l with
    | [] => exact ⟨by simp, List.sorted_nil, List.chain'_nil⟩
    | first :: rest =>
      dsimp only
      rw [hs] at hsorted hzs
      have hfz : first.size ≠ 0 := hzs first (List.mem_cons_self _ _)
      have hrz : ∀ c ∈ rest, c.size ≠ 0 := fun c hc => hzs c (List.mem_cons_of_mem _ hc)
      rcases coalesceWalk_filter_spec rest first hfz hrz with ⟨s, tl, heq, _, hchain⟩
      refine ⟨?_, ?_, ?_⟩
      · intro c hc
        have := (List.mem_filter.mp hc).2
        simpa using this
      · exact (coalesceWalk_sorted rest first hsorted).filter _
      · rw [heq]
        exact hchain
  · rename_i hlen
    match l with
    | [] => exact ⟨hz, List.sorted_nil, List.chain'_nil⟩
    | [c] => exact ⟨hz, List.sorted_singleton c, List.chain'_singleton c⟩
    | a :: b :: r => exact absurd (by simp) hlen

/-- Any list in the normal form is a fixed point of `optimize_copy_cmds`. -/
theorem optimize_of_normalized (l : List CopyCmd) (ha : ∀ c ∈ l, c.size ≠ 0)
    (hb : List.Sorted cmdLE l) (hc : List.Chain' (fun p c => ¬ mergeable p c) l) :
    optimize_copy_cmds l = l := by
  unfold optimize_copy_cmds
  split
  · rename_i hlen
    rw [List.Sorted.insertionSort_eq hb]
    match l, hc with
    | [], _ => rfl
    | first :: rest, hc =>
      dsimp only
      rw [coalesceWalk_of_chain rest first hc, List.filter_eq_self.mpr]
      intro a hamem
      simpa using ha a hamem
  · rfl

/-- C6, amended.  `optimize_copy_cmds` is not idempotent on arbitrary lists (see the
counterexample, where a zero-size command blocks a merge on the first pass and is
discarded), but it is idempotent on every list with no zero-size command — in
particular on all lists the pipeline produces. -/
theorem c6_optimize_idempotent_amended (cmds : List CopyCmd)
    (hz : ∀ c ∈ cmds, c.size ≠ 0) :
    optimize_copy_cmds (optimize_copy_cmds cmds) = optimize_copy_cmds cmds := by
  obtain ⟨ha, hb, hc⟩ := optimize_normalized cmds hz
  exact optimize_of_normalized _ ha hb hc

/-- Witness for the amended C6 at `[⟨0,0,1⟩, ⟨5,3,2⟩]`. -/
theorem c6_optimize_idempotent_amended_witness :
    optimize_copy_cmds (optimize_copy_cmds [⟨0, 0, 1⟩, ⟨5, 3, 2⟩])
      = optimize_copy_cmds [⟨0, 0, 1⟩, ⟨5, 3, 2⟩] :=
  c6_optimize_idempotent_amended [⟨0, 0, 1⟩, ⟨5, 3, 2⟩] (by decide)

/-! ## Coverage counting: `optimize_copy_cmds` preserves the covered positions (C4) -/

theorem coversB_zero_size (c : CopyCmd) (i : Nat) (h : c.size = 0) : coversB c i = false := by
  simp only [coversB, decide_eq_false_iff_not]
  omega

theorem countP_filter_nz (l : List CopyCmd) (i : Nat) :
    (l.filter fun c => decide (c.size ≠ 0)).countP (fun c => coversB c i)
      = l.countP (fun c => coversB c i) := by
  induction l with
  | nil => rfl
  | cons c rest ih =>
    by_cases hz : c.size = 0
    · rw [List.filter_cons_of_neg (by simpa using hz), List.countP_cons, ih,
        coversB_zero_size c i hz]
      simp
    · rw [List.filter_cons_of_pos (by simpa using hz), List.countP_cons,
        List.countP_cons, ih]

theorem countP_coalesceWalk : ∀ (l : List CopyCmd) (prev : CopyCmd) (i : Nat),
    (coalesceWalk prev l).countP (fun c => coversB c i)
      = (prev :: l).countP (fun c => coversB c i) := by
  intro l
  induction l with
  | nil => intro prev i; rfl
  | cons curr rest ih =>
    intro prev i
    rw [coalesceWalk]
    split
    · rename_i hm
      rcases hm with ⟨h1, h2, h3⟩
      rw [List.countP_cons,
        ih ⟨prev.source, prev.target, curr.size + prev.size⟩ i,
        List.countP_cons, List.countP_cons, List.countP_cons]
      simp only [coversB, decide_eq_true_eq]
      split_ifs <;> omega
    · rw [List.countP_cons, ih curr i, List.countP_cons, List.countP_cons,
        List.countP_cons]

theorem countP_optimize (l : List CopyCmd) (i : Nat) :
    (optimize_copy_cmds l).countP (fun c => coversB c i)
      = l.countP (fun c => coversB c i) := by
  unfold optimize_copy_cmds
  split
  · have hp := List.perm_insertionSort cmdLE l
    match hs : List.insertionSort cmdLE l with
    | [] =>
      rw [hs] at hp
      exact hp.countP_eq _
    | first :: rest =>
      dsimp only
      rw [hs] at hp
      rw [countP_filter_nz, countP_coalesceWalk]
      exact hp.countP_eq _
  · rfl

theorem countP_buildOtherCmds (other_data : List Nat) (i : Nat) :
    ∀ (l : List CopyCmd) (dataLen : Nat),
      (buildOtherCmds other_data l dataLen).2.countP (fun c => coversB c i)
        = l.countP (fun c => coversB c i) := by
  intro l
  induction l with
  | nil => intro dataLen; rfl
  | cons cmd rest ih =>
    intro dataLen
    rw [buildOtherCmds]
    dsimp only
    rw [List.countP_cons, ih, List.countP_cons]
    rfl

theorem countP_emitCmds (hmap : List (List Nat × Nat)) (i : Nat) :
    ∀ blocks : List Block,
      (emitCmds hmap blocks).base.countP (fun c => coversB c i)
        + (emitCmds hmap blocks).other.countP (fun c => coversB c i)
      = blocks.countP (fun b => decide (b.offset ≤ i ∧ i < b.offset + b.size)) := by
  intro blocks
  induction blocks with
  | nil => rfl
  | cons blk rest ih =>
    rw [emitCmds]
    split
    · rename_i off hoff
      dsimp only
      rw [List.countP_cons, List.countP_cons]
      have hcb : coversB ⟨off, blk.offset, blk.size⟩ i
          = decide (blk.offset ≤ i ∧ i < blk.offset + blk.size) := rfl
      rw [hcb]
      omega
    · dsimp only
      rw [List.countP_cons, List.countP_cons]
      have hcb : coversB ⟨blk.offset, blk.offset, blk.size⟩ i
          = decide (blk.offset ≤ i ∧ i < blk.offset + blk.size) := rfl
      rw [hcb]
      omega

theorem countP_computeBlocksAux (bs : Nat) (hbs : 1 ≤ bs) (i : Nat) :
    ∀ (fuel : Nat) (input : List Nat) (off : Nat), input.length ≤ fuel →
      (computeBlocksAux bs fuel input off).countP
          (fun b => decide (b.offset ≤ i ∧ i < b.offset + b.size))
        = if off ≤ i ∧ i < off + input.length then 1 else 0 := by
  intro fuel
  induction fuel with
  | zero =>
    intro input off h
    have hnil : input = [] := List.length_eq_zero.mp (Nat.le_zero.mp h)
    subst hnil
    simp only [computeBlocksAux, List.countP_nil, List.length_nil, Nat.add_zero]
    rw [if_neg (by omega)]
  | succ f ih =>
    intro input off h
    match input with
    | [] =>
      simp only [computeBlocksAux, List.countP_nil, List.length_nil, Nat.add_zero]
      rw [if_neg (by omega)]
    | x :: xs =>
      have hdrop : ((x :: xs).drop bs).length ≤ f := by
        simp only [List.length_drop, List.length_cons] at h ⊢
        omega
      simp only [computeBlocksAux]
      rw [List.countP_cons, ih ((x :: xs).drop bs) (off + bs) hdrop]
      simp only [List.length_take, List.length_drop, List.length_cons,
        decide_eq_true_eq]
      split_ifs <;> omega

/-! ## Synchronization soundness: an accepted scan forces `base = other` (C4) -/

def sumLens : List (List Nat) → Nat
  | [] => 0
  | l :: rest => l.length + sumLens rest

theorem sumLens_append_single (ls : List (List Nat)) (l : List Nat) :
    sumLens (ls ++ [l]) = sumLens ls + l.length := by
  induction ls with
  | nil =>
    show l.length + 0 = 0 + l.length
    omega
  | cons a rest ih =>
    show a.length + sumLens (rest ++ [l]) = a.length + sumLens rest + l.length
    rw [ih]
    omega

theorem flatten_append_single (ls : List (List Nat)) (l : List Nat) :
    (ls ++ [l]).flatten = ls.flatten ++ l := by
  rw [List.flatten_append]
  simp

/-- The gap invariant of the scan: the matched windows (recorded in `seq`) are
disjoint in-order segments of the scanned prefix, so their total length is at most the
scan position; when it is exactly the final position, the input is their
concatenation. -/
theorem scanLoop_gap_invariant (input : List Nat) (bs : Nat) (hbs : 1 ≤ bs)
    (weakSet : List Nat) (strongSet : List (List Nat)) :
    ∀ (fuel wb : Nat) (rh : RollingHash) (hmap : List (List Nat × Nat))
      (seq : List (List Nat)),
      wb ≤ input.length →
      input.length - wb + 1 ≤ fuel →
      sumLens seq ≤ wb →
      (sumLens seq = wb → input.take wb = seq.flatten) →
      sumLens (scanLoop input bs weakSet strongSet fuel wb rh hmap seq).2 ≤ input.length ∧
      (sumLens (scanLoop input bs weakSet strongSet fuel wb rh hmap seq).2 = input.length →
        input = (scanLoop input bs weakSet strongSet fuel wb rh hmap seq).2.flatten) := by
  intro fuel
  induction fuel with
  | zero => intro wb rh hmap seq hwb hfuel _ _; omega
  | succ f ih =>
    intro wb rh hmap seq hwb hfuel hsum hflat
    simp only [scanLoop]
    split
    · rename_i hrem
      dsimp only
      have hwb2 : wb = input.length := by omega
      subst hwb2
      refine ⟨by omega, fun he => ?_⟩
      have := hflat he
      rwa [List.take_length] at this
    · rename_i hrem
      cases hfb : find_base_block input weakSet strongSet wb
          (wb + min (input.length - wb) bs)
          ((rh.update ((input.drop (wb + rh.count)).take
            (min (input.length - wb) bs - rh.count))).get) with
      | some blk =>
        dsimp only
        -- a match: the window slice is appended to `seq`
        have hsize : blk.hash_strong
            = (input.drop wb).take (wb + min (input.length - wb) bs - wb) := by
          unfold find_base_block at hfb
          split at hfb
          · dsimp only at hfb
            split at hfb
            · have := (Option.some_inj.mp hfb).symm
              rw [this]
              rfl
            · exact absurd hfb (by simp)
          · exact absurd hfb (by simp)
        have htws1 : 1 ≤ min (input.length - wb) bs := by omega
        have hlen : blk.hash_strong.length = min (input.length - wb) bs := by
          rw [hsize, List.length_take, List.length_drop]
          omega
        apply ih
        · omega
        · omega
        · rw [sumLens_append_single, hlen]
          omega
        · intro he
          rw [sumLens_append_single, hlen] at he
          have hsum2 : sumLens seq = wb := by omega
          rw [List.take_add, flatten_append_single, ← hflat hsum2, hsize]
          have harg : wb + min (input.length - wb) bs - wb
              = min (input.length - wb) bs := by omega
          rw [harg]
      | none =>
        dsimp only
        -- a miss: slide by one, `seq` unchanged
        apply ih
        · omega
        · omega
        · omega
        · intro he
          exact absurd he (by omega)

theorem is_synchronized_eq :
    ∀ (blocks : List Block) (sequence : List (List Nat)),
      is_synchronized sequence blocks = true → sequence = blocks.map Block.hash_strong := by
  intro blocks
  induction blocks with
  | nil =>
    intro sequence h
    unfold is_synchronized at h
    rw [Bool.and_eq_true] at h
    have hlen := of_decide_eq_true h.1
    rw [List.length_eq_zero.mp hlen]
    rfl
  | cons b rest ih =>
    intro sequence h
    unfold is_synchronized at h
    rw [Bool.and_eq_true] at h
    have hlen := of_decide_eq_true h.1
    match sequence, hlen, h with
    | s :: srest, hlen, h =>
      have h2 := h.2
      rw [List.zip_cons_cons, List.all_cons, Bool.and_eq_true] at h2
      have hs : s = b.hash_strong := of_decide_eq_true h2.1
      have htail : is_synchronized srest rest = true := by
        unfold is_synchronized
        rw [Bool.and_eq_true]
        refine ⟨decide_eq_true ?_, h2.2⟩
        simp only [List.length_cons] at hlen
        omega
      rw [List.map_cons, hs, ih srest htail]

theorem computeBlocksAux_strong (bs : Nat) (hbs : 1 ≤ bs) :
    ∀ (fuel : Nat) (input : List Nat) (off : Nat), input.length ≤ fuel →
      sumLens ((computeBlocksAux bs fuel input off).map Block.hash_strong) = input.length ∧
      ((computeBlocksAux bs fuel input off).map Block.hash_strong).flatten = input := by
  intro fuel
  induction fuel with
  | zero =>
    intro input off h
    have hnil : input = [] := List.length_eq_zero.mp (Nat.le_zero.mp h)
    subst hnil
    exact ⟨rfl, rfl⟩
  | succ f ih =>
    intro input off h
    match input with
    | [] => exact ⟨rfl, rfl⟩
    | x :: xs =>
      have hdrop : ((x :: xs).drop bs).length ≤ f := by
        simp only [List.length_drop, List.length_cons] at h ⊢
        omega
      rcases ih ((x :: xs).drop bs) (off + bs) hdrop with ⟨ih1, ih2⟩
      constructor
      · show ((x :: xs).take bs).length
            + sumLens ((computeBlocksAux bs f ((x :: xs).drop bs) (off + bs)).map
                Block.hash_strong) = _
        rw [ih1, List.length_take, List.length_drop]
        simp only [List.length_cons]
        omega
      · show (x :: xs).take bs
            ++ ((computeBlocksAux bs f ((x :: xs).drop bs) (off + bs)).map
                Block.hash_strong).flatten = _
        rw [ih2, List.take_append_drop]

/-- Synchronization soundness: if the scan of `base` against `other`'s blocks reports
equal lengths and a matching strong-hash sequence, then `base` and `other` are
bytewise equal. -/
theorem sync_implies_eq (base other : List Nat) (bs : Nat) (hbs : 1 ≤ bs)
    (hlen : base.length = sumSizes (compute_blocks other bs))
    (hsync : is_synchronized
      (scanLoop base bs ((compute_blocks other bs).map Block.hash_weak)
        ((compute_blocks other bs).map Block.hash_strong) (base.length + 1) 0
        RollingHash.new [] []).2 (compute_blocks other bs) = true) :
    base = other := by
  have hgap := scanLoop_gap_invariant base bs hbs
    ((compute_blocks other bs).map Block.hash_weak)
    ((compute_blocks other bs).map Block.hash_strong)
    (base.length + 1) 0 RollingHash.new [] [] (Nat.zero_le _) (by omega)
    (Nat.le_refl 0) (fun _ => rfl)
  have hseq := is_synchronized_eq (compute_blocks other bs) _ hsync
  rw [hseq] at hgap
  have hbl : sumLens ((compute_blocks other bs).map Block.hash_strong) = other.length ∧
      ((compute_blocks other bs).map Block.hash_strong).flatten = other :=
    computeBlocksAux_strong bs hbs other.length other 0 (Nat.le_refl _)
  have hss := sumSizes_compute_blocks other bs hbs
  have hgf := hgap.2 (by
    show sumLens ((compute_blocks other bs).map Block.hash_strong) = base.length
    rw [hbl.1]
    omega)
  rw [hgf]
  exact hbl.2

theorem build_patch_base (od : List Nat) (pc : PatchCommands) :
    (build_patch od pc).base = optimize_copy_cmds pc.base := rfl

theorem build_patch_other (od : List Nat) (pc : PatchCommands) :
    (build_patch od pc).other = optimize_copy_cmds (buildOtherCmds od pc.other 0).2 := rfl

theorem build_patch_other_size (od : List Nat) (pc : PatchCommands) :
    (build_patch od pc).other_size = od.length := rfl

/-- C4, amended.  The claim fails for the synchronized case (see the counterexample:
`base = other` nonempty gives a command-free patch with positive `other_size`), but
holds whenever `other` is empty or `base ≠ other`: every position of
`[0, other_size)` is covered by exactly one command of `patch.base ++ patch.other`,
and no position outside it is covered. -/
theorem c4_tiling_amended (base other : List Nat) (bs i : Nat) (hbs : 1 ≤ bs)
    (hne : other = [] ∨ base ≠ other) :
    ((build_patch other (compute_diff base (compute_blocks other bs) bs)).base
      ++ (build_patch other (compute_diff base (compute_blocks other bs) bs)).other).countP
        (fun c => coversB c i)
    = if i < (build_patch other (compute_diff base (compute_blocks other bs) bs)).other_size
      then 1 else 0 := by
  rw [build_patch_base, build_patch_other, build_patch_other_size]
  simp only [compute_diff]
  split
  · -- emission: the commands inherit the blocks' target ranges, which tile [0, |other|)
    rw [List.countP_append, countP_optimize, countP_optimize, countP_buildOtherCmds,
      countP_emitCmds]
    show (computeBlocksAux bs other.length other 0).countP _ = _
    rw [countP_computeBlocksAux bs hbs i other.length other 0 (Nat.le_refl _)]
    split_ifs <;> omega
  · -- synchronization: only possible here when `other = []`
    rename_i hcond
    rw [not_or] at hcond
    have h1 : base.length = sumSizes (compute_blocks other bs) := not_not.mp hcond.1
    have h2 : is_synchronized
        (scanLoop base bs ((compute_blocks other bs).map Block.hash_weak)
          ((compute_blocks other bs).map Block.hash_strong) (base.length + 1) 0
          RollingHash.new [] []).2 (compute_blocks other bs) = true := by
      cases hcase : is_synchronized
        (scanLoop base bs ((compute_blocks other bs).map Block.hash_weak)
          ((compute_blocks other bs).map Block.hash_strong) (base.length + 1) 0
          RollingHash.new [] []).2 (compute_blocks other bs) with
      | false => exact absurd hcase hcond.2
      | true => rfl
    have hbase_eq : base = other := sync_implies_eq base other bs hbs h1 h2
    rcases hne with hO | hB
    · subst hO
      show (List.countP _ ([] ++ [])) = if i < ([] : List Nat).length then 1 else 0
      rw [if_neg (by simp)]
      rfl
    · exact absurd hbase_eq hB

/-- Witness for the amended C4 at `base = [1, 2]`, `other = [3]`, `block_size = 1`,
position `i = 0`. -/
theorem c4_tiling_amended_witness :
    ((build_patch [3] (compute_diff [1, 2] (compute_blocks [3] 1) 1)).base
      ++ (build_patch [3] (compute_diff [1, 2] (compute_blocks [3] 1) 1)).other).countP
        (fun c => coversB c 0)
    = if 0 < (build_patch [3] (compute_diff [1, 2] (compute_blocks [3] 1) 1)).other_size
      then 1 else 0 :=
  c4_tiling_amended [1, 2] [3] 1 0 (by decide) (Or.inr (by decide))

/-! ## Pointwise semantics of command execution (C5) -/

/-- The successful effect of `CopyCmd::execute` (the splice it performs when the
slice ranges are in bounds). -/
def writeCmd (cmd : CopyCmd) (target source : List Nat) : List Nat :=
  target.take cmd.target ++ (source.drop cmd.source).take cmd.size
    ++ target.drop (cmd.target + cmd.size)

theorem execute_eq_writeCmd {cmd : CopyCmd} {dest src : List Nat}
    (h : cmd.source + cmd.size ≤ src.length ∧ cmd.target + cmd.size ≤ dest.length) :
    cmd.execute dest src = some (writeCmd cmd dest src) := by
  unfold CopyCmd.execute writeCmd
  rw [if_pos h]

/-- Executing a command list, ignoring failure (used only under in-bounds hypotheses,
where it agrees with `execCmds`). -/
def execPure (source : List Nat) : List CopyCmd → List Nat → List Nat
  | [], dest => dest
  | cmd :: rest, dest => execPure source rest (writeCmd cmd dest source)

theorem writeCmd_length {cmd : CopyCmd} {dest src : List Nat}
    (ht : cmd.target + cmd.size ≤ dest.length)
    (hs : cmd.source + cmd.size ≤ src.length) :
    (writeCmd cmd dest src).length = dest.length := by
  unfold writeCmd
  simp only [List.length_append, List.length_take, List.length_drop]
  omega

theorem execCmds_eq_execPure (src : List Nat) :
    ∀ (l : List CopyCmd) (dest : List Nat),
      (∀ c ∈ l, c.source + c.size ≤ src.length ∧ c.target + c.size ≤ dest.length) →
      execCmds src l dest = some (execPure src l dest) := by
  intro l
  induction l with
  | nil => intro dest h; rfl
  | cons cmd rest ih =>
    intro dest h
    have hc := h cmd (List.mem_cons_self _ _)
    rw [execCmds, execute_eq_writeCmd ⟨hc.1, hc.2⟩]
    rw [execPure]
    exact ih (writeCmd cmd dest src) fun c hcmem => by
      rw [writeCmd_length hc.2 hc.1]
      exact h c (List.mem_cons_of_mem _ hcmem)

theorem execPure_length (src : List Nat) :
    ∀ (l : List CopyCmd) (dest : List Nat),
      (∀ c ∈ l, c.source + c.size ≤ src.length ∧ c.target + c.size ≤ dest.length) →
      (execPure src l dest).length = dest.length := by
  intro l
  induction l with
  | nil => intro dest h; rfl
  | cons cmd rest ih =>
    intro dest h
    have hc := h cmd (List.mem_cons_self _ _)
    rw [execPure, ih (writeCmd cmd dest src) fun c hcmem => by
        rw [writeCmd_length hc.2 hc.1]
        exact h c (List.mem_cons_of_mem _ hcmem),
      writeCmd_length hc.2 hc.1]

/-- Pointwise description of a single write: inside the target range the byte comes
from the source (shifted); outside it the destination is untouched. -/
theorem writeCmd_getD (cmd : CopyCmd) (dest src : List Nat) (i : Nat)
    (ht : cmd.target + cmd.size ≤ dest.length)
    (hs : cmd.source + cmd.size ≤ src.length) :
    (writeCmd cmd dest src).getD i 0
      = if cmd.target ≤ i ∧ i < cmd.target + cmd.size
        then src.getD (i - cmd.target + cmd.source) 0 else dest.getD i 0 := by
  unfold writeCmd
  rw [List.append_assoc, List.getD_eq_getElem?_getD, List.getElem?_append]
  rw [List.length_take]
  have htlen : min cmd.target dest.length = cmd.target := Nat.min_eq_left (by omega)
  rw [htlen]
  by_cases h1 : i < cmd.target
  · rw [if_pos h1, List.getElem?_take, if_pos h1, if_neg (by omega),
      List.getD_eq_getElem?_getD]
  · rw [if_neg h1, List.getElem?_append, List.length_take, List.length_drop]
    have hmlen : min cmd.size (src.length - cmd.source) = cmd.size :=
      Nat.min_eq_left (by omega)
    rw [hmlen]
    by_cases h2 : i - cmd.target < cmd.size
    · rw [if_pos h2, List.getElem?_take, if_pos h2, List.getElem?_drop,
        if_pos (by omega), List.getD_eq_getElem?_getD]
      have hidx : cmd.source + (i - cmd.target) = i - cmd.target + cmd.source := by omega
      rw [hidx]
    · rw [if_neg h2, List.getElem?_drop, if_neg (by omega),
        List.getD_eq_getElem?_getD]
      have hidx : cmd.target + cmd.size + (i - cmd.target - cmd.size) = i := by omega
      rw [hidx]

/-- Semantic target-disjointness of two commands: no byte position is written by
both.  (A zero-size command is disjoint from everything.) -/
def semDisjoint (c d : CopyCmd) : Prop :=
  ∀ j, ¬(coversB c j = true ∧ coversB d j = true)

theorem semDisjoint_symm : Symmetric semDisjoint := by
  intro c d h j hj
  exact h j ⟨hj.2, hj.1⟩

theorem execPure_getD_not_covered (src : List Nat) :
    ∀ (l : List CopyCmd) (dest : List Nat) (i : Nat),
      (∀ c ∈ l, c.source + c.size ≤ src.length ∧ c.target + c.size ≤ dest.length) →
      (∀ c ∈ l, coversB c i = false) →
      (execPure src l dest).getD i 0 = dest.getD i 0 := by
  intro l
  induction l with
  | nil => intro dest i _ _; rfl
  | cons cmd rest ih =>
    intro dest i hb hnc
    have hc := hb cmd (List.mem_cons_self _ _)
    rw [execPure, ih (writeCmd cmd dest src) i
        (fun c hcmem => by
          rw [writeCmd_length hc.2 hc.1]
          exact hb c (List.mem_cons_of_mem _ hcmem))
        (fun c hcmem => hnc c (List.mem_cons_of_mem _ hcmem)),
      writeCmd_getD cmd dest src i hc.2 hc.1]
    rw [if_neg]
    have := hnc cmd (List.mem_cons_self _ _)
    simp only [coversB, decide_eq_false_iff_not] at this
    exact this

theorem execPure_getD_covered (src : List Nat) :
    ∀ (l : List CopyCmd) (dest : List Nat) (i : Nat) (c : CopyCmd),
      (∀ c' ∈ l, c'.source + c'.size ≤ src.length ∧ c'.target + c'.size ≤ dest.length) →
      List.Pairwise semDisjoint l →
      c ∈ l → coversB c i = true →
      (execPure src l dest).getD i 0 = src.getD (i - c.target + c.source) 0 := by
  intro l
  induction l with
  | nil => intro dest i c _ _ hc; exact absurd hc (by simp)
  | cons cmd rest ih =>
    intro dest i c hb hdisj hc hcb
    have hcmd := hb cmd (List.mem_cons_self _ _)
    have hbrest : ∀ c' ∈ rest,
        c'.source + c'.size ≤ src.length
          ∧ c'.target + c'.size ≤ (writeCmd cmd dest src).length := fun c' hcmem => by
      rw [writeCmd_length hcmd.2 hcmd.1]
      exact hb c' (List.mem_cons_of_mem _ hcmem)
    rcases List.mem_cons.mp hc with hhead | htail
    · subst hhead
      rw [execPure, execPure_getD_not_covered src rest (writeCmd c dest src) i hbrest
          (fun c' hcmem => by
            have hd := (List.pairwise_cons.mp hdisj).1 c' hcmem
            rcases hcase : coversB c' i with _ | _
            · rfl
            · exact absurd ⟨hcb, hcase⟩ (hd i)),
        writeCmd_getD c dest src i hcmd.2 hcmd.1, if_pos]
      simp only [coversB, decide_eq_true_eq] at hcb
      exact hcb
    · rw [execPure]
      exact ih (writeCmd cmd dest src) i c hbrest (List.pairwise_cons.mp hdisj).2
        htail hcb

/-! ## Coverage with source mapping is preserved by coalescing (C5) -/

/-- Position `i` is written (with byte taken from source position `v`) by some
command of the list. -/
def coveredWith (l : List CopyCmd) (i v : Nat) : Prop :=
  ∃ c ∈ l, coversB c i = true ∧ i - c.target + c.source = v

theorem coveredWith_cons (c : CopyCmd) (l : List CopyCmd) (i v : Nat) :
    coveredWith (c :: l) i v
      ↔ (coversB c i = true ∧ i - c.target + c.source = v) ∨ coveredWith l i v := by
  unfold coveredWith
  constructor
  · rintro ⟨x, hx, hp⟩
    rcases List.mem_cons.mp hx with h | h
    · exact Or.inl (h ▸ hp)
    · exact Or.inr ⟨x, h, hp⟩
  · rintro (hp | ⟨x, hx, hp⟩)
    · exact ⟨c, List.mem_cons_self _ _, hp⟩
    · exact ⟨x, List.mem_cons_of_mem _ hx, hp⟩

theorem coveredWith_coalesceWalk : ∀ (l : List CopyCmd) (prev : CopyCmd) (i v : Nat),
    coveredWith (coalesceWalk prev l) i v ↔ coveredWith (prev :: l) i v := by
  intro l
  induction l with
  | nil => intro prev i v; rw [coalesceWalk]
  | cons curr rest ih =>
    intro prev i v
    rw [coalesceWalk]
    split
    · rename_i hm
      rcases hm with ⟨h1, h2, h3⟩
      rw [coveredWith_cons, ih, coveredWith_cons, coveredWith_cons, coveredWith_cons]
      have hzero : ¬(coversB ⟨prev.source, prev.target, 0⟩ i = true
          ∧ i - (⟨prev.source, prev.target, 0⟩ : CopyCmd).target
            + (⟨prev.source, prev.target, 0⟩ : CopyCmd).source = v) := by
        simp only [coversB, decide_eq_true_eq]
        omega
      have hcore : (coversB ⟨prev.source, prev.target, curr.size + prev.size⟩ i = true
            ∧ i - (⟨prev.source, prev.target, curr.size + prev.size⟩ : CopyCmd).target
              + (⟨prev.source, prev.target, curr.size + prev.size⟩ : CopyCmd).source = v)
          ↔ ((coversB prev i = true ∧ i - prev.target + prev.source = v)
            ∨ (coversB curr i = true ∧ i - curr.target + curr.source = v)) := by
        simp only [coversB, decide_eq_true_eq]
        omega
      constructor
      · rintro (hz | h)
        · exact absurd hz hzero
        · rcases h with hc | hr
          · rcases hcore.mp hc with hp | hq
            · exact Or.inl hp
            · exact Or.inr (Or.inl hq)
          · exact Or.inr (Or.inr hr)
      · rintro (hp | (hq | hr))
        · exact Or.inr (Or.inl (hcore.mpr (Or.inl hp)))
        · exact Or.inr (Or.inl (hcore.mpr (Or.inr hq)))
        · exact Or.inr (Or.inr hr)
    · rw [coveredWith_cons, ih, coveredWith_cons, coveredWith_cons, coveredWith_cons]

theorem coveredWith_filter_nz (l : List CopyCmd) (i v : Nat) :
    coveredWith (l.filter fun c => decide (c.size ≠ 0)) i v ↔ coveredWith l i v := by
  unfold coveredWith
  constructor
  · rintro ⟨c, hc, hp⟩
    exact ⟨c, (List.mem_filter.mp hc).1, hp⟩
  · rintro ⟨c, hc, hp⟩
    refine ⟨c, List.mem_filter.mpr ⟨hc, ?_⟩, hp⟩
    have := hp.1
    simp only [coversB, decide_eq_true_eq] at this
    simp only [decide_eq_true_eq]
    omega

theorem coveredWith_perm {l₁ l₂ : List CopyCmd} (h : l₁.Perm l₂) (i v : Nat) :
    coveredWith l₁ i v ↔ coveredWith l₂ i v := by
  unfold coveredWith
  constructor
  · rintro ⟨c, hc, hp⟩
    exact ⟨c, h.mem_iff.mp hc, hp⟩
  · rintro ⟨c, hc, hp⟩
    exact ⟨c, h.mem_iff.mpr hc, hp⟩

theorem coveredWith_optimize (l : List CopyCmd) (i v : Nat) :
    coveredWith (optimize_copy_cmds l) i v ↔ coveredWith l i v := by
  unfold optimize_copy_cmds
  split
  · have hp := List.perm_insertionSort cmdLE l
    match hs : List.insertionSort cmdLE l with
    | [] =>
      rw [hs] at hp
      exact coveredWith_perm hp i v
    | first :: rest =>
      dsimp only
      rw [hs] at hp
      rw [coveredWith_filter_nz, coveredWith_coalesceWalk]
      exact coveredWith_perm hp i v
  · exact Iff.rfl

theorem semDisjoint_coalesceWalk : ∀ (l : List CopyCmd) (prev : CopyCmd),
    List.Pairwise semDisjoint (prev :: l) →
    List.Pairwise semDisjoint (coalesceWalk prev l) := by
  intro l
  induction l with
  | nil =>
    intro prev _
    rw [coalesceWalk]
    exact List.pairwise_singleton _ _
  | cons curr rest ih =>
    intro prev h
    have hpc := (List.pairwise_cons.mp h).1
    have htail := (List.pairwise_cons.mp h).2
    have hct := (List.pairwise_cons.mp htail).1
    have hrest := (List.pairwise_cons.mp htail).2
    rw [coalesceWalk]
    split
    · rename_i hm
      rcases hm with ⟨h1, h2, h3⟩
      rw [List.pairwise_cons]
      constructor
      · intro y _ j hj
        have := hj.1
        simp only [coversB, decide_eq_true_eq] at this
        omega
      · apply ih
        rw [List.pairwise_cons]
        refine ⟨?_, hrest⟩
        intro y hy j hj
        have hcov := hj.1
        simp only [coversB, decide_eq_true_eq] at hcov
        by_cases hpj : j < prev.target + prev.size
        · exact hpc y (List.mem_cons_of_mem _ hy) j
            ⟨by simp only [coversB, decide_eq_true_eq]; omega, hj.2⟩
        · exact hct y hy j
            ⟨by simp only [coversB, decide_eq_true_eq]; omega, hj.2⟩
    · rw [List.pairwise_cons]
      constructor
      · intro y hy j hj
        have hcw : coveredWith (coalesceWalk curr rest) j
            (j - y.target + y.source) := ⟨y, hy, hj.2, rfl⟩
        rcases (coveredWith_coalesceWalk rest curr j _).mp hcw with ⟨x, hx, hxc, _⟩
        exact hpc x hx j ⟨hj.1, hxc⟩
      · exact ih curr htail

theorem semDisjoint_optimize (l : List CopyCmd) (h : List.Pairwise semDisjoint l) :
    List.Pairwise semDisjoint (optimize_copy_cmds l) := by
  unfold optimize_copy_cmds
  split
  · have hp := List.perm_insertionSort cmdLE l
    match hs : List.insertionSort cmdLE l with
    | [] => exact List.Pairwise.nil
    | first :: rest =>
      dsimp only
      rw [hs] at hp
      have hsorted : List.Pairwise semDisjoint (first :: rest) :=
        (hp.pairwise_iff (fun {_ _} hxy => semDisjoint_symm hxy)).mpr h
      exact (semDisjoint_coalesceWalk rest first hsorted).sublist
        (List.filter_sublist _)
  · exact h

theorem bounds_coalesceWalk (S T : Nat) : ∀ (l : List CopyCmd) (prev : CopyCmd),
    (∀ c ∈ prev :: l, c.source + c.size ≤ S ∧ c.target + c.size ≤ T) →
    ∀ c ∈ coalesceWalk prev l, c.source + c.size ≤ S ∧ c.target + c.size ≤ T := by
  intro l
  induction l with
  | nil =>
    intro prev h c hc
    rw [coalesceWalk] at hc
    rw [List.mem_singleton.mp hc]
    exact h prev (List.mem_cons_self _ _)
  | cons curr rest ih =>
    intro prev h c hc
    have hprev := h prev (List.mem_cons_self _ _)
    have hcurr := h curr (List.mem_cons_of_mem _ (List.mem_cons_self _ _))
    have hrest : ∀ x ∈ rest, x.source + x.size ≤ S ∧ x.target + x.size ≤ T :=
      fun x hx => h x (List.mem_cons_of_mem _ (List.mem_cons_of_mem _ hx))
    rw [coalesceWalk] at hc
    split at hc
    · rename_i hm
      rcases hm with ⟨h1, h2, h3⟩
      rcases List.mem_cons.mp hc with hh | ht
      · rw [hh]
        constructor <;> dsimp only <;> omega
      · refine ih ⟨prev.source, prev.target, curr.size + prev.size⟩ ?_ c ht
        intro x hx
        rcases List.mem_cons.mp hx with hh2 | ht2
        · rw [hh2]
          constructor <;> dsimp only <;> omega
        · exact hrest x ht2
    · rcases List.mem_cons.mp hc with hh | ht
      · rw [hh]
        exact hprev
      · refine ih curr ?_ c ht
        intro x hx
        rcases List.mem_cons.mp hx with hh2 | ht2
        · rw [hh2]
          exact hcurr
        · exact hrest x ht2

theorem bounds_optimize (S T : Nat) (l : List CopyCmd)
    (h : ∀ c ∈ l, c.source + c.size ≤ S ∧ c.target + c.size ≤ T) :
    ∀ c ∈ optimize_copy_cmds l, c.source + c.size ≤ S ∧ c.target + c.size ≤ T := by
  unfold optimize_copy_cmds
  split
  · have hp := List.perm_insertionSort cmdLE l
    match hs : List.insertionSort cmdLE l with
    | [] => intro c hc; exact absurd hc (by simp)
    | first :: rest =>
      dsimp only
      rw [hs] at hp
      intro c hc
      refine bounds_coalesceWalk S T rest first ?_ c (List.mem_of_mem_filter hc)
      intro x hx
      exact h x (hp.mem_iff.mp hx)
  · exact h

/-- C5, amended.  The claim fails for overlapping target ranges (see the
counterexample: sorting reorders overlapping writes), but holds for every list whose
commands write pairwise disjoint target ranges — as all pipeline-produced lists do —
when every command is in bounds: the pre- and post-coalesce lists write identical
bytes into the destination. -/
theorem c5_coalesce_equiv_amended (cmds : List CopyCmd) (src dest : List Nat)
    (hdisj : List.Pairwise semDisjoint cmds)
    (hbounds : ∀ c ∈ cmds, c.source + c.size ≤ src.length
      ∧ c.target + c.size ≤ dest.length) :
    execCmds src (optimize_copy_cmds cmds) dest = execCmds src cmds dest := by
  have hbounds2 := bounds_optimize src.length dest.length cmds hbounds
  have hdisj2 := semDisjoint_optimize cmds hdisj
  rw [execCmds_eq_execPure src cmds dest hbounds,
    execCmds_eq_execPure src (optimize_copy_cmds cmds) dest hbounds2]
  refine congrArg some ?_
  have hlen1 := execPure_length src (optimize_copy_cmds cmds) dest hbounds2
  have hlen2 := execPure_length src cmds dest hbounds
  apply List.ext_getElem (by rw [hlen1, hlen2])
  intro n hn1 hn2
  rw [← List.getD_eq_getElem (execPure src (optimize_copy_cmds cmds) dest) 0 hn1,
    ← List.getD_eq_getElem (execPure src cmds dest) 0 hn2]
  by_cases hcov : ∃ c ∈ cmds, coversB c n = true
  · obtain ⟨c, hc, hcb⟩ := hcov
    rw [execPure_getD_covered src cmds dest n c hbounds hdisj hc hcb]
    have hcw : coveredWith (optimize_copy_cmds cmds) n (n - c.target + c.source) :=
      (coveredWith_optimize cmds n _).mpr ⟨c, hc, hcb, rfl⟩
    obtain ⟨c2, hc2, hcb2, hv2⟩ := hcw
    rw [execPure_getD_covered src (optimize_copy_cmds cmds) dest n c2 hbounds2
      hdisj2 hc2 hcb2, hv2]
  · have hnc : ∀ c ∈ cmds, coversB c n = false := by
      intro c hc
      rcases hcase : coversB c n with _ | _
      · rfl
      · exact absurd ⟨c, hc, hcase⟩ hcov
    have hnc2 : ∀ c ∈ optimize_copy_cmds cmds, coversB c n = false := by
      intro c hc
      rcases hcase : coversB c n with _ | _
      · rfl
      · have hcw : coveredWith (optimize_copy_cmds cmds) n (n - c.target + c.source) :=
          ⟨c, hc, hcase, rfl⟩
        rcases (coveredWith_optimize cmds n _).mp hcw with ⟨x, hx, hxc, _⟩
        exact absurd ⟨x, hx, hxc⟩ hcov
    rw [execPure_getD_not_covered src cmds dest n hbounds hnc,
      execPure_getD_not_covered src (optimize_copy_cmds cmds) dest n hbounds2 hnc2]

/-- Witness for the amended C5 at `cmds = [⟨0,0,1⟩, ⟨1,2,1⟩]`, `src = [7,8]`,
`dest = [0,0,0]`. -/
theorem c5_coalesce_equiv_amended_witness :
    execCmds [7, 8] (optimize_copy_cmds [⟨0, 0, 1⟩, ⟨1, 2, 1⟩]) [0, 0, 0]
      = execCmds [7, 8] [⟨0, 0, 1⟩, ⟨1, 2, 1⟩] [0, 0, 0] :=
  c5_coalesce_equiv_amended [⟨0, 0, 1⟩, ⟨1, 2, 1⟩] [7, 8] [0, 0, 0]
    (by
      refine List.Pairwise.cons ?_ (List.pairwise_singleton _ _)
      intro y hy j hj
      rw [List.mem_singleton.mp hy] at hj
      have h1 := hj.1
      have h2 := hj.2
      simp only [coversB, decide_eq_true_eq] at h1 h2
      omega)
    (by
      intro c hc
      rcases List.mem_cons.mp hc with h | h
      · rw [h]
        exact ⟨by decide, by decide⟩
      · rw [List.mem_singleton.mp h]
        exact ⟨by decide, by decide⟩)

end Patchy
